import Mathlib

/-!
Verification development for the eCFR analyzer ingestion pipeline
(scripts/fetch_ecfr.py and the SQLAlchemy models in src/app/models.py).

The Python functions are shallowly embedded as pure Lean functions:
  - the database session is explicit state (lists of rows plus id counters;
    session.flush assigns the next surrogate id),
  - external effects (HTTP GET, the XML library parse, the summarization
    call) are parameters describing their observable outcome,
  - Python values that may be None are Option values,
  - Python truthiness tests on str / int / None are explicit functions.
-/

namespace Ecfr

/-! ## Python string / truthiness helpers -/

/-- The whitespace characters removed by Python str.strip(). -/
def isPySpace (c : Char) : Bool :=
  c = ' ' ∨ c = '\t' ∨ c = '\n' ∨ c = '\r' ∨ c = '\x0b' ∨ c = '\x0c'

/-- Python str.strip(): drop leading and trailing whitespace. -/
def pyStrip (s : String) : String :=
  String.mk (((s.data.dropWhile isPySpace).reverse.dropWhile isPySpace).reverse)

/-- Python " ".join(parts): concatenate with a single space between items. -/
def joinWithSpace : List String → String
  | [] => ""
  | [s] => s
  | s :: rest => s ++ " " ++ joinWithSpace rest

/-- Truthiness of a Python str-or-None value: None and "" are falsy. -/
def pyTruthyStr : Option String → Bool
  | none => false
  | some s => s != ""

/-- Truthiness of a Python int-or-None value: None and 0 are falsy. -/
def pyTruthyInt : Option Int → Bool
  | none => false
  | some n => n != 0

/-! ## XML documents and extract_text_from_xml

An ElementTree element carries optional text, optional tail text and child
elements.  root.iter() visits elements in document order (pre-order); the
extraction loop appends element.text.strip() and element.tail.strip() at the
visit of the element, before descending into the children. -/

inductive XmlNode where
  | elem (text : Option String) (tail : Option String) (children : List XmlNode)

/-- One step of the extraction loop: when the raw text is truthy, append
its stripped form (appending element text and tail text alike). -/
def optTextPart : Option String → List String
  | some t => if t = "" then [] else [pyStrip t]
  | none => []

mutual

def collectParts : XmlNode → List String
  | .elem text tail children => optTextPart text ++ optTextPart tail ++ collectPartsList children

def collectPartsList : List XmlNode → List String
  | [] => []
  | x :: xs => collectParts x ++ collectPartsList xs

end

/-- The joined extraction text: " ".join(part for part in text_parts if part). -/
def extractedText (root : XmlNode) : String :=
  joinWithSpace ((collectParts root).filter (fun p => p != ""))

/-- The fallback truncation of extract_text_from_xml:
max_size = 1_048_576; text[:max_size] if len(text) > max_size else text. -/
def fallbackTruncate (text : String) : String :=
  let max_size : Nat := 1048576
  if text.length > max_size then String.mk (text.data.take max_size) else text

/-- extract_text_from_xml.  The outcome of ET.fromstring is the first
argument (none models an ET.ParseError); the outcome of the summarization
call is the second (none models any exception from that call, which the
source catches broadly). -/
def extract_text_from_xml (parsed : Option XmlNode) (summarizeResult : Option String) : String :=
  match parsed with
  | none => ""
  | some root =>
    let text := extractedText root
    if text = "" then ""
    else
      match summarizeResult with
      | some summary => summary
      | none => fallbackTruncate text

/-! ## fetch_cfr_xml_content -/

/-- Observable outcome of a rate-limited HTTP GET: a response body whose
raise_for_status passed, or any httpx.HTTPError (transport error, HTTP
status error, timeout). -/
inductive FetchOutcome where
  | success (body : String)
  | httpError

structure HttpRequest where
  url : String
  params : List (String × String)

def buildUrl (cfr_date : String) (title : Int) : String :=
  "https://www.ecfr.gov/api/versioner/v1/full/" ++ cfr_date ++ "/title-" ++ toString title ++ ".xml"

/-- The params dict of fetch_cfr_xml_content: each component is added only
if truthy (if chapter: ..., if part: ..., if subchapter: ...). -/
def buildParams (chapter : Option String) (part : Option Int) (subchapter : Option String) :
    List (String × String) :=
  let p1 : List (String × String) :=
    match chapter with
    | some c => if c != "" then [("chapter", c)] else []
    | none => []
  let p2 : List (String × String) :=
    match part with
    | some n => if n != 0 then [("part", toString n)] else []
    | none => []
  let p3 : List (String × String) :=
    match subchapter with
    | some sc => if sc != "" then [("subchapter", sc)] else []
    | none => []
  p1 ++ p2 ++ p3

/-- fetch_cfr_xml_content: perform the GET; on success extract/summarize the
body, on any httpx.HTTPError return none (the except branch). -/
def fetch_cfr_xml_content (doGet : HttpRequest → FetchOutcome) (parse : String → Option XmlNode)
    (summarizeResult : Option String) (cfr_date : String) (title : Int)
    (chapter : Option String) (part : Option Int) (subchapter : Option String) : Option String :=
  match doGet { url := buildUrl cfr_date title, params := buildParams chapter part subchapter } with
  | .success body => some (extract_text_from_xml (parse body) summarizeResult)
  | .httpError => none

/-! ## Title metadata rows and upsert_title_metadata

Dates are represented by their ISO 8601 strings; date.fromisoformat is
injective on valid inputs, so parse_date carries the string through. -/

/-- parse_date: None maps to None, an ISO string to the date it denotes
(represented by the string itself). -/
def parse_date : Option String → Option String
  | none => none
  | some s => some s

structure TitleData where
  number : Int
  name : String
  latest_amended_on : Option String
  latest_issue_date : Option String
  up_to_date_as_of : Option String
  reserved : Bool
deriving DecidableEq

structure TitleMetadata where
  number : Int
  name : String
  latest_amended_on : Option String
  latest_issue_date : Option String
  up_to_date_as_of : Option String
  reserved : Bool
deriving DecidableEq

/-- select(TitleMetadata).where(TitleMetadata.number == number) with
scalar_one_or_none, modelled as first match (number is the primary key). -/
def findTitleByNumber : List TitleMetadata → Int → Option TitleMetadata
  | [], _ => none
  | t :: rest, n => if t.number = n then some t else findTitleByNumber rest n

/-- The field overwrite performed on an existing TitleMetadata row. -/
def overwriteTitle (t : TitleMetadata) (d : TitleData) : TitleMetadata :=
  { t with
    name := d.name
    latest_amended_on := parse_date d.latest_amended_on
    latest_issue_date := parse_date d.latest_issue_date
    up_to_date_as_of := parse_date d.up_to_date_as_of
    reserved := d.reserved }

/-- The TitleMetadata row built on the insert path. -/
def newTitleRow (d : TitleData) : TitleMetadata :=
  { number := d.number
    name := d.name
    latest_amended_on := parse_date d.latest_amended_on
    latest_issue_date := parse_date d.latest_issue_date
    up_to_date_as_of := parse_date d.up_to_date_as_of
    reserved := d.reserved }

/-- upsert_title_metadata: look up by number; insert a new row on a miss,
overwrite the mutable fields in place on a match.  Returns the table after
the flush together with the returned row. -/
def upsert_title_metadata (rows : List TitleMetadata) (d : TitleData) :
    List TitleMetadata × TitleMetadata :=
  match findTitleByNumber rows d.number with
  | none => (rows ++ [newTitleRow d], newTitleRow d)
  | some t =>
    (rows.map (fun r => if r.number = d.number then overwriteTitle r d else r), overwriteTitle t d)

/-! ## CFR reference rows, agencies, and the agency upsert

The content column was added to cfr_references by a later migration (the
serving layer and the enrichment loop both read/write it); it starts null. -/

structure CFRReference where
  id : Nat
  title : Int
  chapter : Option String
  part : Option Int
  subchapter : Option String
  content : Option String
deriving DecidableEq

structure AgencyRow where
  id : Nat
  name : String
  short_name : Option String
  display_name : String
  sortable_name : String
  slug : String
  parent_id : Option Nat
deriving DecidableEq

/-- One element of agency_data["cfr_references"]; chapter, part and
subchapter are fetched with dict.get and may be absent. -/
structure RefTupleData where
  title : Int
  chapter : Option String
  part : Option Int
  subchapter : Option String
deriving DecidableEq

/-- The input agency tree: agency_data dicts with nested children. -/
inductive AgencyNode where
  | mk (name : String) (short_name : Option String) (display_name : String)
      (sortable_name : String) (slug : String)
      (cfr_references : List RefTupleData) (children : List AgencyNode)

def AgencyNode.slug : AgencyNode → String
  | .mk _ _ _ _ s _ _ => s

def AgencyNode.children : AgencyNode → List AgencyNode
  | .mk _ _ _ _ _ _ cs => cs

/-- The database state touched by the agency phase: the three tables plus
the surrogate-id counters that session.flush draws from. -/
structure Db where
  agencies : List AgencyRow
  cfr_references : List CFRReference
  agency_cfr_references : List (Nat × Nat)
  next_agency_id : Nat
  next_cfr_reference_id : Nat
deriving DecidableEq

/-- select(Agency).where(Agency.slug == slug) with scalar_one_or_none,
modelled as first match (slug carries a unique constraint). -/
def findAgencyBySlug : List AgencyRow → String → Option AgencyRow
  | [], _ => none
  | a :: rest, s => if a.slug = s then some a else findAgencyBySlug rest s

/-- The null-aware 4-tuple lookup of get_or_create_cfr_reference: SQLAlchemy
renders == None as IS NULL, so absent components compare equal to absent. -/
def findCFRReference : List CFRReference → Int → Option String → Option Int → Option String →
    Option CFRReference
  | [], _, _, _, _ => none
  | r :: rest, t, c, p, sc =>
    if r.title = t ∧ r.chapter = c ∧ r.part = p ∧ r.subchapter = sc then some r
    else findCFRReference rest t c p sc

/-- get_or_create_cfr_reference: return the existing row for the tuple, or
insert a new one (content null) and flush, assigning the next id. -/
def get_or_create_cfr_reference (db : Db) (title : Int) (chapter : Option String)
    (part : Option Int) (subchapter : Option String) : Db × CFRReference :=
  match findCFRReference db.cfr_references title chapter part subchapter with
  | some r => (db, r)
  | none =>
    let r : CFRReference :=
      { id := db.next_cfr_reference_id, title := title, chapter := chapter,
        part := part, subchapter := subchapter, content := none }
    ({ db with
        cfr_references := db.cfr_references ++ [r],
        next_cfr_reference_id := db.next_cfr_reference_id + 1 }, r)

/-- Membership test for the association pair, as the
select(AgencyCFRReference).where(...) scalar_one_or_none lookup. -/
def assocPresent : List (Nat × Nat) → Nat → Nat → Bool
  | [], _, _ => false
  | pr :: rest, a, r => if pr.1 = a ∧ pr.2 = r then true else assocPresent rest a r

/-- The loop over agency_data["cfr_references"]: resolve each tuple and add
the (agency_id, cfr_reference_id) association only if not already present. -/
def processRefs (db : Db) (aid : Nat) : List RefTupleData → Db
  | [] => db
  | rt :: rest =>
    let res := get_or_create_cfr_reference db rt.title rt.chapter rt.part rt.subchapter
    let db1 := res.1
    let rid := res.2.id
    let db2 :=
      if assocPresent db1.agency_cfr_references aid rid then db1
      else { db1 with agency_cfr_references := db1.agency_cfr_references ++ [(aid, rid)] }
    processRefs db2 aid rest

/-- agency_data.get("short_name") or None: the empty string becomes None. -/
def orNoneStr : Option String → Option String
  | some s => if s = "" then none else some s
  | none => none

/-- The in-place field overwrite of the update branch of upsert_agency
(slug and id are untouched). -/
def overwriteAgencyFields (name : String) (short_name : Option String)
    (display_name : String) (sortable_name : String) (parent_id : Option Nat)
    (b : AgencyRow) : AgencyRow :=
  { b with
    name := name
    short_name := orNoneStr short_name
    display_name := display_name
    sortable_name := sortable_name
    parent_id := parent_id }

/-- Apply f to the rows whose slug matches, keep the others. -/
def updateWhereSlug (f : AgencyRow → AgencyRow) (slug : String) (l : List AgencyRow) :
    List AgencyRow :=
  l.map (fun b => if b.slug = slug then f b else b)

/-- The row step of upsert_agency: look up by slug; on a miss insert a new
Agency (flush assigns the id), on a hit overwrite name, short_name,
display_name, sortable_name and parent_id in place.  Returns the state and
agency.id. -/
def upsertAgencyRowStep (db : Db) (name : String) (short_name : Option String)
    (display_name : String) (sortable_name : String) (slug : String)
    (parent_id : Option Nat) : Db × Nat :=
  match findAgencyBySlug db.agencies slug with
  | none =>
    let a : AgencyRow :=
      { id := db.next_agency_id, name := name, short_name := orNoneStr short_name,
        display_name := display_name, sortable_name := sortable_name, slug := slug,
        parent_id := parent_id }
    ({ db with agencies := db.agencies ++ [a], next_agency_id := db.next_agency_id + 1 }, a.id)
  | some a =>
    let updated :=
      updateWhereSlug (overwriteAgencyFields name short_name display_name sortable_name parent_id)
        slug db.agencies
    ({ db with agencies := updated }, a.id)

mutual

/-- upsert_agency: upsert the row for this node, process its reference
tuples, then recurse into the children with parent_id = this_agency.id.
Returns the final state and the id of this agency. -/
def upsert_agency (db : Db) (node : AgencyNode) (parent_id : Option Nat) : Db × Nat :=
  match node with
  | .mk name short_name display_name sortable_name slug cfr_references children =>
    let step := upsertAgencyRowStep db name short_name display_name sortable_name slug parent_id
    let db2 := processRefs step.1 step.2 cfr_references
    (upsertAgencyChildren db2 children step.2, step.2)

/-- The recursion over node.children inside upsert_agency. -/
def upsertAgencyChildren (db : Db) (nodes : List AgencyNode) (pid : Nat) : Db :=
  match nodes with
  | [] => db
  | c :: cs => upsertAgencyChildren (upsert_agency db c (some pid)).1 cs pid

end

/-! ## Slugs and edges of an input tree -/

mutual

def treeSlugs : AgencyNode → List String
  | .mk _ _ _ _ slug _ children => slug :: treeSlugsList children

def treeSlugsList : List AgencyNode → List String
  | [] => []
  | c :: cs => treeSlugs c ++ treeSlugsList cs

end

mutual

/-- The (parent slug, child slug) pairs supplied by the tree. -/
def treeEdges : AgencyNode → List (String × String)
  | .mk _ _ _ _ slug _ children => edgesFrom slug children

def edgesFrom : String → List AgencyNode → List (String × String)
  | _, [] => []
  | s, c :: cs => ((s, c.slug) :: treeEdges c) ++ edgesFrom s cs

end

/-- The persisted parent/child integrity of one supplied edge: the row of
the child points at the id of the row of its supplied parent. -/
def edgeOk (db : Db) (e : String × String) : Prop :=
  ∃ pa ca, findAgencyBySlug db.agencies e.1 = some pa ∧
    findAgencyBySlug db.agencies e.2 = some ca ∧ ca.parent_id = some pa.id

/-! ## fetch_and_populate_cfr_content: the content-enrichment loop -/

/-- The external world seen by one enrichment run: the HTTP GET outcome,
the XML parse outcome per body, and the summarization outcome per
reference (the anthropic call is made once per processed reference). -/
structure EnrichEnv where
  doGet : HttpRequest → FetchOutcome
  parse : String → Option XmlNode
  summarizeResult : CFRReference → Option String

/-- The up_to_date_as_of lookup of the loop body: select TitleMetadata by
number; none when the row is missing or its up_to_date_as_of is null. -/
def lookupDate (titles : List TitleMetadata) (n : Int) : Option String :=
  match findTitleByNumber titles n with
  | none => none
  | some tm => tm.up_to_date_as_of

/-- The fetch_cfr_xml_content call issued for one reference. -/
def enrichFetch (env : EnrichEnv) (r : CFRReference) (d : String) : Option String :=
  fetch_cfr_xml_content env.doGet env.parse (env.summarizeResult r) d r.title r.chapter
    r.part r.subchapter

structure EnrichState where
  refs : List CFRReference
  updated : Nat
  failed : Nat
  skipped : Nat
  commits : List Nat
deriving DecidableEq

/-- The enumerate(cfr_refs, 1) loop of fetch_and_populate_cfr_content:
skip when no as-of date is known (the continue bypasses the checkpoint),
otherwise fetch; truthy content updates the row and the updated counter,
falsy content bumps failed; then commit when idx % 10 == 0. -/
def enrichGo (env : EnrichEnv) (titles : List TitleMetadata) :
    Nat → List CFRReference → EnrichState → EnrichState
  | _, [], st => st
  | idx, r :: rest, st =>
    match lookupDate titles r.title with
    | none =>
      enrichGo env titles (idx + 1) rest
        { st with refs := st.refs ++ [r], skipped := st.skipped + 1 }
    | some d =>
      let content := enrichFetch env r d
      let st1 :=
        if pyTruthyStr content then
          { st with
            refs := st.refs ++ [{ r with content := content }]
            updated := st.updated + 1 }
        else
          { st with refs := st.refs ++ [r], failed := st.failed + 1 }
      let st2 := if idx % 10 = 0 then { st1 with commits := st1.commits ++ [idx] } else st1
      enrichGo env titles (idx + 1) rest st2

structure EnrichResult where
  refs : List CFRReference
  updated : Nat
  failed : Nat
  skipped : Nat
  commits : List Nat
  finalCommit : Bool
deriving DecidableEq

/-- fetch_and_populate_cfr_content: run the loop from index 1 and then
issue the unconditional final commit. -/
def fetch_and_populate_cfr_content (env : EnrichEnv) (titles : List TitleMetadata)
    (cfr_refs : List CFRReference) : EnrichResult :=
  let st := enrichGo env titles 1 cfr_refs
    { refs := [], updated := 0, failed := 0, skipped := 0, commits := [] }
  { refs := st.refs, updated := st.updated, failed := st.failed, skipped := st.skipped,
    commits := st.commits, finalCommit := true }

/-- Classification of one reference by the loop body: skipped when no as-of
date is known. -/
def refSkipped (titles : List TitleMetadata) (r : CFRReference) : Bool :=
  (lookupDate titles r.title).isNone

/-- Classification: failed when a date is known but the fetched content is
falsy (the fetch returned None, or the extraction was empty). -/
def refFailed (env : EnrichEnv) (titles : List TitleMetadata) (r : CFRReference) : Bool :=
  match lookupDate titles r.title with
  | none => false
  | some d => !(pyTruthyStr (enrichFetch env r d))

/-- Classification: updated when a date is known and the content is truthy. -/
def refUpdated (env : EnrichEnv) (titles : List TitleMetadata) (r : CFRReference) : Bool :=
  match lookupDate titles r.title with
  | none => false
  | some d => pyTruthyStr (enrichFetch env r d)

/-- The loop checkpoints actually emitted: index multiples of 10 whose
iteration was not skipped. -/
def expectedCommits (titles : List TitleMetadata) : Nat → List CFRReference → List Nat
  | _, [] => []
  | idx, r :: rest =>
    (if (lookupDate titles r.title).isSome ∧ idx % 10 = 0 then [idx] else []) ++
      expectedCommits titles (idx + 1) rest

/-- A concrete source document used by witnesses. -/
def wRoot : XmlNode := XmlNode.elem (some "Food safety rules") none []

/-! ## C7, C8, C10 -/

/-- C7: Extraction fault tolerance — for every input that fails XML parsing
(modelled by the parse outcome none), extract_text_from_xml returns the
empty string and never raises; a malformed upstream document never aborts
the run. -/
theorem extract_parse_failure_empty (summarizeResult : Option String) :
    extract_text_from_xml none summarizeResult = "" := rfl

/-- C8: Summarization fallback — for a parsed document with non-empty
extracted text, a failing summarization call (outcome none) yields the raw
truncated extraction, and a successful call yields the summary text. -/
theorem extract_summarization_fallback (root : XmlNode) (h : extractedText root ≠ "") :
    extract_text_from_xml (some root) none = fallbackTruncate (extractedText root) ∧
    ∀ summary : String, extract_text_from_xml (some root) (some summary) = summary := by
  refine ⟨?_, ?_⟩
  · simp only [extract_text_from_xml]
    rw [if_neg h]
  · intro summary
    simp only [extract_text_from_xml]
    rw [if_neg h]

theorem extract_summarization_fallback_witness :
    extractedText wRoot ≠ "" ∧
    (extract_text_from_xml (some wRoot) none = fallbackTruncate (extractedText wRoot) ∧
      ∀ summary : String, extract_text_from_xml (some wRoot) (some summary) = summary) :=
  ⟨by decide, extract_summarization_fallback wRoot (by decide)⟩

/-- C10: every falsy chapter / part / subchapter argument (None, the empty
string, or 0) is omitted from the request query parameters entirely, so the
request is exactly the one sent when the component is absent. -/
theorem fetch_params_omit_falsy :
    (∀ p s, buildParams (some "") p s = buildParams none p s) ∧
    (∀ c s, buildParams c (some 0) s = buildParams c none s) ∧
    (∀ c p, buildParams c p (some "") = buildParams c p none) ∧
    (∀ p s v, ("chapter", v) ∉ buildParams none p s) ∧
    (∀ c s v, ("part", v) ∉ buildParams c none s) ∧
    (∀ c p v, ("subchapter", v) ∉ buildParams c p none) ∧
    (∀ doGet parse sm d t p s,
      fetch_cfr_xml_content doGet parse sm d t (some "") p s =
        fetch_cfr_xml_content doGet parse sm d t none p s) ∧
    (∀ doGet parse sm d t c s,
      fetch_cfr_xml_content doGet parse sm d t c (some 0) s =
        fetch_cfr_xml_content doGet parse sm d t c none s) ∧
    (∀ doGet parse sm d t c p,
      fetch_cfr_xml_content doGet parse sm d t c p (some "") =
        fetch_cfr_xml_content doGet parse sm d t c p none) := by
  refine ⟨?_, ?_, ?_, ?_, ?_, ?_, ?_, ?_, ?_⟩
  · intro p s; simp [buildParams]
  · intro c s; simp [buildParams]
  · intro c p; simp [buildParams]
  · intro p s v
    cases p <;> cases s <;> simp [buildParams]
  · intro c s v
    cases c <;> cases s <;> simp [buildParams]
  · intro c p v
    cases c <;> cases p <;> simp [buildParams]
  · intro doGet parse sm d t p s; simp [fetch_cfr_xml_content, buildParams]
  · intro doGet parse sm d t c s; simp [fetch_cfr_xml_content, buildParams]
  · intro doGet parse sm d t c p; simp [fetch_cfr_xml_content, buildParams]

/-! ## C3: Reference Deduplicator idempotence -/

theorem findCFRReference_append (l1 l2 : List CFRReference) (t : Int) (c : Option String)
    (p : Option Int) (s : Option String) :
    findCFRReference (l1 ++ l2) t c p s =
      ((findCFRReference l1 t c p s).elim (findCFRReference l2 t c p s) some) := by
  induction l1 with
  | nil => simp [findCFRReference]
  | cons r rest ih =>
    by_cases h : r.title = t ∧ r.chapter = c ∧ r.part = p ∧ r.subchapter = s
    · simp [findCFRReference, h]
    · simp [findCFRReference, h, ih]

/-- C3: Reference Deduplicator idempotence under null-aware tuple equality —
for every (title, chapter, part, subchapter) tuple, with absent components
as none and none comparing equal to none, a second call of
get_or_create_cfr_reference returns the very same row and leaves the store
unchanged (so e.g. (7, "I", 100, none) resolved twice yields one Reference). -/
theorem get_or_create_cfr_reference_idempotent (db : Db) (t : Int) (c : Option String)
    (p : Option Int) (s : Option String) :
    get_or_create_cfr_reference (get_or_create_cfr_reference db t c p s).1 t c p s =
      get_or_create_cfr_reference db t c p s := by
  cases h : findCFRReference db.cfr_references t c p s with
  | some r =>
    simp [get_or_create_cfr_reference, h]
  | none =>
    simp only [get_or_create_cfr_reference, h]
    rw [findCFRReference_append, h]
    simp [findCFRReference]

/-! ## C9: Title upsert contract -/

theorem findTitleByNumber_append (l1 l2 : List TitleMetadata) (n : Int) :
    findTitleByNumber (l1 ++ l2) n =
      ((findTitleByNumber l1 n).elim (findTitleByNumber l2 n) some) := by
  induction l1 with
  | nil => simp [findTitleByNumber]
  | cons r rest ih =>
    by_cases h : r.number = n
    · simp [findTitleByNumber, h]
    · simp [findTitleByNumber, h, ih]

theorem findTitleByNumber_overwrite (rows : List TitleMetadata) (d : TitleData) :
    findTitleByNumber
        (rows.map (fun r => if r.number = d.number then overwriteTitle r d else r)) d.number =
      (findTitleByNumber rows d.number).map (fun t => overwriteTitle t d) := by
  induction rows with
  | nil => simp [findTitleByNumber]
  | cons r rest ih =>
    by_cases h : r.number = d.number
    · simp [findTitleByNumber, h, overwriteTitle]
    · simp [findTitleByNumber, h, ih]

theorem filter_other_numbers_overwrite (rows : List TitleMetadata) (d : TitleData) :
    (rows.map (fun r => if r.number = d.number then overwriteTitle r d else r)).filter
        (fun r => r.number != d.number) =
      rows.filter (fun r => r.number != d.number) := by
  induction rows with
  | nil => simp
  | cons r rest ih =>
    by_cases h : r.number = d.number
    · have h1 : ((overwriteTitle r d).number != d.number) = false := by
        simp [overwriteTitle, h]
      simp [h, h1, ih]
    · simp [h, ih]

/-- C9: Title upsert contract — upsert_title_metadata looks up by number;
on a miss it appends one new row, on a match it overwrites the mutable
fields of the single row keyed by that number in place (row count
unchanged), and in both cases every row with a different number is left
exactly as it was. -/
theorem upsert_title_metadata_contract (rows : List TitleMetadata) (d : TitleData) :
    (upsert_title_metadata rows d).1.length =
      (if (findTitleByNumber rows d.number).isSome then rows.length else rows.length + 1) ∧
    ((upsert_title_metadata rows d).1.filter (fun r => r.number != d.number) =
      rows.filter (fun r => r.number != d.number)) ∧
    (findTitleByNumber (upsert_title_metadata rows d).1 d.number =
      some ((findTitleByNumber rows d.number).elim (newTitleRow d) (fun t => overwriteTitle t d))) ∧
    ((upsert_title_metadata rows d).2 =
      (findTitleByNumber rows d.number).elim (newTitleRow d) (fun t => overwriteTitle t d)) := by
  cases h : findTitleByNumber rows d.number with
  | none =>
    refine ⟨?_, ?_, ?_, ?_⟩
    · simp [upsert_title_metadata, h]
    · simp only [upsert_title_metadata, h]
      simp [List.filter_append, newTitleRow]
    · simp only [upsert_title_metadata, h]
      rw [findTitleByNumber_append, h]
      simp [findTitleByNumber, newTitleRow]
    · simp [upsert_title_metadata, h]
  | some t =>
    refine ⟨?_, ?_, ?_, ?_⟩
    · simp [upsert_title_metadata, h]
    · simp only [upsert_title_metadata, h]
      exact filter_other_numbers_overwrite rows d
    · simp only [upsert_title_metadata, h]
      rw [findTitleByNumber_overwrite, h]
      simp
    · simp [upsert_title_metadata, h]

/-! ## C2: the length cap of the fallback path -/

theorem length_mk (l : List Char) : (String.mk l).length = l.length := by
  rw [← String.length_data]

/-- A 2,000,000-character extraction source. -/
def bigText : String := String.mk (List.replicate 2000000 'x')

/-- A document whose extraction is bigText. -/
def bigDoc : XmlNode := XmlNode.elem (some bigText) none []

theorem bigText_data : bigText.data = List.replicate 2000000 'x' := rfl

theorem dropWhile_replicate (p : Char → Bool) (ch : Char) (hp : p ch = false) (n : Nat) :
    (List.replicate n ch).dropWhile p = List.replicate n ch := by
  cases n with
  | zero => simp
  | succ m => simp [List.replicate_succ, List.dropWhile_cons, hp]

theorem pyStrip_bigText : pyStrip bigText = bigText := by
  have hx : isPySpace 'x' = false := by decide
  unfold pyStrip
  rw [bigText_data, dropWhile_replicate _ _ hx, List.reverse_replicate,
    dropWhile_replicate _ _ hx, List.reverse_replicate]
  rfl

theorem bigText_length : bigText.length = 2000000 := by
  rw [← String.length_data, bigText_data, List.length_replicate]

theorem bigText_ne_empty : bigText ≠ "" := by
  intro h
  have h2 : bigText.length = ("" : String).length := by rw [h]
  rw [bigText_length] at h2
  have h0 : ("" : String).length = 0 := rfl
  rw [h0] at h2
  exact absurd h2 (by decide)

theorem extractedText_bigDoc : extractedText bigDoc = bigText := by
  have hne := bigText_ne_empty
  have hb : (bigText != "") = true := by
    simp only [bne_iff_ne, ne_eq]
    exact hne
  have hop : optTextPart (some bigText) = [pyStrip bigText] := by
    rw [optTextPart, if_neg hne]
  rw [extractedText, bigDoc]
  rw [collectParts, hop, pyStrip_bigText, collectPartsList]
  rw [optTextPart]
  simp only [List.append_nil, List.singleton_append, List.filter_cons, hb, List.filter_nil]
  rfl

/-- C2, counterexample: the claim caps the fallback output at 1,048,575
characters, but feeding a 2,000,000-character document through the fallback
path returns exactly 1,048,576 characters (the source truncates with
max_size = 1_048_576). -/
theorem extract_truncation_counterexample :
    (extract_text_from_xml (some bigDoc) none).length = 1048576 ∧
    ¬((extract_text_from_xml (some bigDoc) none).length ≤ 1048575) := by
  have hne := bigText_ne_empty
  have hext : extract_text_from_xml (some bigDoc) none = fallbackTruncate bigText := by
    simp [extract_text_from_xml, extractedText_bigDoc, hne]
  have hgt : bigText.length > 1048576 := by rw [bigText_length]; omega
  have htr : fallbackTruncate bigText = String.mk (bigText.data.take 1048576) := by
    simp [fallbackTruncate, hgt]
  have hlen : (extract_text_from_xml (some bigDoc) none).length = 1048576 := by
    rw [hext, htr, length_mk, bigText_data, List.length_take, List.length_replicate]
    omega
  exact ⟨hlen, by omega⟩

/-- C2, amended: for every document routed through the fallback path of
extract_text_from_xml, the returned text has length at most 1,048,576
characters (the 1 MiB boundary, max_size = 1_048_576); excess is truncated,
not rejected. -/
theorem extract_truncation_cap_amended (parsed : Option XmlNode) :
    (extract_text_from_xml parsed none).length ≤ 1048576 := by
  cases parsed with
  | none => simp [extract_text_from_xml]
  | some root =>
    by_cases h : extractedText root = ""
    · simp [extract_text_from_xml, h]
    · have hext : extract_text_from_xml (some root) none = fallbackTruncate (extractedText root) := by
        simp [extract_text_from_xml, h]
      rw [hext]
      unfold fallbackTruncate
      by_cases h2 : (extractedText root).length > 1048576
      · rw [if_pos h2, length_mk, List.length_take]
        have := (extractedText root).length_data
        omega
      · rw [if_neg h2]
        omega

/-! ## C5 and C6: the content-enrichment loop -/

theorem enrichGo_counts (env : EnrichEnv) (titles : List TitleMetadata)
    (refs : List CFRReference) : ∀ (idx : Nat) (st : EnrichState),
    (enrichGo env titles idx refs st).failed =
      st.failed + (refs.filter (refFailed env titles)).length ∧
    (enrichGo env titles idx refs st).updated =
      st.updated + (refs.filter (refUpdated env titles)).length ∧
    (enrichGo env titles idx refs st).skipped =
      st.skipped + (refs.filter (refSkipped titles)).length ∧
    (enrichGo env titles idx refs st).refs.length = st.refs.length + refs.length := by
  induction refs with
  | nil => intro idx st; simp [enrichGo]
  | cons r rest ih =>
    intro idx st
    cases hd : lookupDate titles r.title with
    | none =>
      have e1 : refFailed env titles r = false := by simp [refFailed, hd]
      have e2 : refUpdated env titles r = false := by simp [refUpdated, hd]
      have e3 : refSkipped titles r = true := by simp [refSkipped, hd]
      simp only [enrichGo, hd]
      obtain ⟨f1, f2, f3, f4⟩ :=
        ih (idx + 1) { st with refs := st.refs ++ [r], skipped := st.skipped + 1 }
      rw [f1, f2, f3, f4]
      refine ⟨?_, ?_, ?_, ?_⟩ <;> simp [List.filter_cons, e1, e2, e3] <;> omega
    | some d =>
      have e3 : refSkipped titles r = false := by simp [refSkipped, hd]
      by_cases hc : pyTruthyStr (enrichFetch env r d)
      · have e1 : refFailed env titles r = false := by simp [refFailed, hd, hc]
        have e2 : refUpdated env titles r = true := by simp [refUpdated, hd, hc]
        simp only [enrichGo, hd, hc, if_true]
        by_cases hm : idx % 10 = 0 <;>
          · simp only [hm, if_true, if_false, reduceIte]
            obtain ⟨f1, f2, f3, f4⟩ := ih (idx + 1) _
            rw [f1, f2, f3, f4]
            refine ⟨?_, ?_, ?_, ?_⟩ <;> simp [List.filter_cons, e1, e2, e3] <;> omega
      · have e1 : refFailed env titles r = true := by simp [refFailed, hd, hc]
        have e2 : refUpdated env titles r = false := by simp [refUpdated, hd, hc]
        simp only [enrichGo, hd, hc, if_false]
        by_cases hm : idx % 10 = 0 <;>
          · simp only [hm, if_true, if_false, reduceIte]
            obtain ⟨f1, f2, f3, f4⟩ := ih (idx + 1) _
            rw [f1, f2, f3, f4]
            refine ⟨?_, ?_, ?_, ?_⟩ <;> simp [List.filter_cons, e1, e2, e3] <;> omega

theorem enrichGo_commits (env : EnrichEnv) (titles : List TitleMetadata)
    (refs : List CFRReference) : ∀ (idx : Nat) (st : EnrichState),
    (enrichGo env titles idx refs st).commits = st.commits ++ expectedCommits titles idx refs := by
  induction refs with
  | nil => intro idx st; simp [enrichGo, expectedCommits]
  | cons r rest ih =>
    intro idx st
    cases hd : lookupDate titles r.title with
    | none =>
      simp only [enrichGo, hd]
      rw [ih]
      simp [expectedCommits, hd]
    | some d =>
      simp only [enrichGo, hd]
      by_cases hc : pyTruthyStr (enrichFetch env r d) <;>
        by_cases hm : idx % 10 = 0 <;>
          simp [hc, hm, ih, expectedCommits, hd]

/-- Sample title row used by concrete scenarios. -/
def exTitle : TitleMetadata :=
  { number := 7, name := "Agriculture", latest_amended_on := none, latest_issue_date := none,
    up_to_date_as_of := some "2024-01-01", reserved := false }

/-- Sample reference row. -/
def exRef (i : Nat) (t : Int) : CFRReference :=
  { id := i, title := t, chapter := some "I", part := some 100, subchapter := none,
    content := none }

/-- A healthy external world: every GET succeeds, the body parses, the
summarization succeeds. -/
def exEnv : EnrichEnv :=
  { doGet := fun _ => FetchOutcome.success "body"
    parse := fun _ => some (XmlNode.elem (some "Regulation text") none [])
    summarizeResult := fun _ => some "A summary" }

/-- A world whose every upstream GET fails with a transport error. -/
def failEnv : EnrichEnv :=
  { doGet := fun _ => FetchOutcome.httpError
    parse := fun _ => none
    summarizeResult := fun _ => none }

/-- C5: Upstream fetch failure containment — a transport-level or
HTTP-status error makes fetch_cfr_xml_content return none instead of
raising; a reference whose date is known and whose fetch comes back none is
classified failed; and for every input list the failed counter equals
exactly the number of failed-classified references while every reference is
still processed (the loop never stops early). -/
theorem fetch_failure_containment :
    (∀ parse sm d t c p s,
      fetch_cfr_xml_content (fun _ => FetchOutcome.httpError) parse sm d t c p s = none) ∧
    (∀ env titles r d, lookupDate titles r.title = some d → enrichFetch env r d = none →
      refFailed env titles r = true) ∧
    (∀ env titles refs,
      (fetch_and_populate_cfr_content env titles refs).failed =
        (refs.filter (refFailed env titles)).length ∧
      (fetch_and_populate_cfr_content env titles refs).updated =
        (refs.filter (refUpdated env titles)).length ∧
      (fetch_and_populate_cfr_content env titles refs).skipped =
        (refs.filter (refSkipped titles)).length ∧
      (fetch_and_populate_cfr_content env titles refs).refs.length = refs.length) := by
  refine ⟨?_, ?_, ?_⟩
  · intro parse sm d t c p s; rfl
  · intro env titles r d hd hf
    simp [refFailed, hd, hf, pyTruthyStr]
  · intro env titles refs
    obtain ⟨f1, f2, f3, f4⟩ := enrichGo_counts env titles refs 1 ⟨[], 0, 0, 0, []⟩
    exact ⟨by simpa [fetch_and_populate_cfr_content] using f1,
      by simpa [fetch_and_populate_cfr_content] using f2,
      by simpa [fetch_and_populate_cfr_content] using f3,
      by simpa [fetch_and_populate_cfr_content] using f4⟩

theorem fetch_failure_containment_witness :
    lookupDate [exTitle] (exRef 1 7).title = some "2024-01-01" ∧
    enrichFetch failEnv (exRef 1 7) "2024-01-01" = none ∧
    refFailed failEnv [exTitle] (exRef 1 7) = true :=
  ⟨rfl, rfl, fetch_failure_containment.2.1 failEnv [exTitle] (exRef 1 7) "2024-01-01" rfl rfl⟩

/-- The 10-reference list whose 10th reference has no known title date. -/
def exRefs : List CFRReference :=
  [exRef 1 7, exRef 2 7, exRef 3 7, exRef 4 7, exRef 5 7, exRef 6 7, exRef 7 7, exRef 8 7,
   exRef 9 7, exRef 10 99]

/-- C6, counterexample: the claim promises a checkpoint commit after every
10 processed references regardless of which items are skipped, but with 10
references whose 10th is skipped (no up_to_date_as_of known) the loop
performs no checkpoint commit at all: the continue on the skip path jumps
over the idx %% 10 == 0 commit. -/
theorem enrichment_checkpoint_counterexample :
    exRefs.length = 10 ∧
    (fetch_and_populate_cfr_content exEnv [exTitle] exRefs).commits = [] ∧
    (fetch_and_populate_cfr_content exEnv [exTitle] exRefs).updated = 9 ∧
    (fetch_and_populate_cfr_content exEnv [exTitle] exRefs).skipped = 1 ∧
    (fetch_and_populate_cfr_content exEnv [exTitle] exRefs).failed = 0 := by
  refine ⟨rfl, ?_, ?_, ?_, ?_⟩ <;> rfl

/-- C6, amended: during the enrichment loop a commit occurs after exactly
those iterations whose 1-based index is a multiple of 10 and that were not
skipped for a missing as-of date (the skip path bypasses the checkpoint);
a final commit after the loop always occurs and covers the remainder. -/
theorem enrichment_checkpoint_schedule_amended (env : EnrichEnv)
    (titles : List TitleMetadata) (refs : List CFRReference) :
    (fetch_and_populate_cfr_content env titles refs).commits =
      expectedCommits titles 1 refs ∧
    (fetch_and_populate_cfr_content env titles refs).finalCommit = true := by
  constructor
  · have h := enrichGo_commits env titles refs 1 ⟨[], 0, 0, 0, []⟩
    simpa [fetch_and_populate_cfr_content] using h
  · rfl

/-! ## C1 and C4: helper lemmas about the agency store -/

def slugsOf (l : List AgencyRow) : List String := l.map (fun a => a.slug)

/-- Number of Agency rows carrying a given slug. -/
def countSlug : List AgencyRow → String → Nat
  | [], _ => 0
  | a :: rest, s => (if a.slug = s then 1 else 0) + countSlug rest s

theorem countSlug_eq_count (l : List AgencyRow) (s : String) :
    countSlug l s = (slugsOf l).count s := by
  induction l with
  | nil => simp [countSlug, slugsOf]
  | cons a rest ih =>
    by_cases h : a.slug = s
    · simp [countSlug, slugsOf, h, ih, List.count_cons]
      omega
    · simp [countSlug, slugsOf, h, ih, List.count_cons]

theorem findAgencyBySlug_append (l1 l2 : List AgencyRow) (s : String) :
    findAgencyBySlug (l1 ++ l2) s =
      ((findAgencyBySlug l1 s).elim (findAgencyBySlug l2 s) some) := by
  induction l1 with
  | nil => simp [findAgencyBySlug]
  | cons a rest ih =>
    by_cases h : a.slug = s
    · simp [findAgencyBySlug, h]
    · simp [findAgencyBySlug, h, ih]

theorem findAgencyBySlug_eq_none (l : List AgencyRow) (s : String) :
    findAgencyBySlug l s = none ↔ ∀ a ∈ l, a.slug ≠ s := by
  induction l with
  | nil => simp [findAgencyBySlug]
  | cons a rest ih =>
    by_cases h : a.slug = s
    · simp [findAgencyBySlug, h]
    · simp [findAgencyBySlug, h, ih]

theorem findAgencyBySlug_some_slug (l : List AgencyRow) (s : String) (a : AgencyRow)
    (h : findAgencyBySlug l s = some a) : a.slug = s := by
  induction l with
  | nil => simp [findAgencyBySlug] at h
  | cons b rest ih =>
    by_cases hb : b.slug = s
    · simp [findAgencyBySlug, hb] at h
      rw [← h]
      exact hb
    · simp [findAgencyBySlug, hb] at h
      exact ih h

theorem findAgencyBySlug_isSome_iff (l : List AgencyRow) (s : String) :
    (findAgencyBySlug l s).isSome = true ↔ s ∈ slugsOf l := by
  induction l with
  | nil => simp [findAgencyBySlug, slugsOf]
  | cons a rest ih =>
    by_cases h : a.slug = s
    · simp [findAgencyBySlug, slugsOf, h]
    · simp [findAgencyBySlug, slugsOf, h, ih]
      intro heq
      exact absurd heq.symm h

theorem overwriteAgencyFields_slug (n1 : String) (sn : Option String) (dn sor : String)
    (pid : Option Nat) (b : AgencyRow) :
    (overwriteAgencyFields n1 sn dn sor pid b).slug = b.slug := rfl

theorem overwriteAgencyFields_id (n1 : String) (sn : Option String) (dn sor : String)
    (pid : Option Nat) (b : AgencyRow) :
    (overwriteAgencyFields n1 sn dn sor pid b).id = b.id := rfl

theorem updateWhereSlug_self (f : AgencyRow → AgencyRow) (slug : String) (l : List AgencyRow)
    (hf : ∀ b, (f b).slug = b.slug) :
    findAgencyBySlug (updateWhereSlug f slug l) slug = (findAgencyBySlug l slug).map f := by
  induction l with
  | nil => simp [updateWhereSlug, findAgencyBySlug]
  | cons a rest ih =>
    by_cases h : a.slug = slug
    · simp [updateWhereSlug, findAgencyBySlug, h, hf]
    · simp only [updateWhereSlug, List.map_cons, if_neg h] at ih ⊢
      rw [findAgencyBySlug, if_neg h, ih, findAgencyBySlug, if_neg h]

theorem updateWhereSlug_other (f : AgencyRow → AgencyRow) (slug : String) (l : List AgencyRow)
    (s : String) (hs : s ≠ slug) (hf : ∀ b, (f b).slug = b.slug) :
    findAgencyBySlug (updateWhereSlug f slug l) s = findAgencyBySlug l s := by
  induction l with
  | nil => simp [updateWhereSlug, findAgencyBySlug]
  | cons a rest ih =>
    by_cases h : a.slug = slug
    · have h2 : (f a).slug = s ↔ False := by
        rw [hf]
        simp only [iff_false]
        rw [h]
        exact fun hh => hs hh.symm
      simp only [updateWhereSlug, List.map_cons, if_pos h] at ih ⊢
      rw [findAgencyBySlug, findAgencyBySlug, if_neg h2.mp]
      · rw [ih]
        have h3 : a.slug ≠ s := by
          rw [h]
          exact fun hh => hs hh.symm
        rw [if_neg h3]
    · simp only [updateWhereSlug, List.map_cons, if_neg h] at ih ⊢
      by_cases h2 : a.slug = s
      · rw [findAgencyBySlug, findAgencyBySlug, if_pos h2, if_pos h2]
      · rw [findAgencyBySlug, findAgencyBySlug, if_neg h2, if_neg h2, ih]

theorem slugsOf_updateWhereSlug (f : AgencyRow → AgencyRow) (slug : String) (l : List AgencyRow)
    (hf : ∀ b, (f b).slug = b.slug) :
    slugsOf (updateWhereSlug f slug l) = slugsOf l := by
  induction l with
  | nil => rfl
  | cons a rest ih =>
    simp only [updateWhereSlug, List.map_cons, slugsOf] at ih ⊢
    rw [ih]
    by_cases h : a.slug = slug
    · rw [if_pos h, hf]
    · rw [if_neg h]

theorem length_updateWhereSlug (f : AgencyRow → AgencyRow) (slug : String) (l : List AgencyRow) :
    (updateWhereSlug f slug l).length = l.length := by
  simp [updateWhereSlug]

theorem slugsOf_append (l1 l2 : List AgencyRow) :
    slugsOf (l1 ++ l2) = slugsOf l1 ++ slugsOf l2 := by
  simp [slugsOf]

theorem assocPresent_iff_mem (l : List (Nat × Nat)) (a r : Nat) :
    assocPresent l a r = true ↔ (a, r) ∈ l := by
  induction l with
  | nil => simp [assocPresent]
  | cons pr rest ih =>
    by_cases h : pr.1 = a ∧ pr.2 = r
    · simp only [assocPresent, if_pos h, true_iff, List.mem_cons]
      left
      exact Prod.ext_iff.mpr ⟨h.1.symm, h.2.symm⟩
    · simp only [assocPresent, if_neg h, ih, List.mem_cons]
      constructor
      · exact Or.inr
      · rintro (hh | hh)
        · exact absurd ⟨congrArg Prod.fst hh.symm, congrArg Prod.snd hh.symm⟩ h
        · exact hh

/-! ## Lemmas about the row step of upsert_agency -/

theorem step_cfr_references (db : Db) (n1 : String) (sn : Option String) (dn sor slug : String)
    (pid : Option Nat) :
    (upsertAgencyRowStep db n1 sn dn sor slug pid).1.cfr_references = db.cfr_references := by
  unfold upsertAgencyRowStep
  split <;> rfl

theorem step_assocs (db : Db) (n1 : String) (sn : Option String) (dn sor slug : String)
    (pid : Option Nat) :
    (upsertAgencyRowStep db n1 sn dn sor slug pid).1.agency_cfr_references =
      db.agency_cfr_references := by
  unfold upsertAgencyRowStep
  split <;> rfl

theorem step_next_cfr_reference_id (db : Db) (n1 : String) (sn : Option String)
    (dn sor slug : String) (pid : Option Nat) :
    (upsertAgencyRowStep db n1 sn dn sor slug pid).1.next_cfr_reference_id =
      db.next_cfr_reference_id := by
  unfold upsertAgencyRowStep
  split <;> rfl

theorem step_find_self (db : Db) (n1 : String) (sn : Option String) (dn sor slug : String)
    (pid : Option Nat) :
    ∃ row, findAgencyBySlug (upsertAgencyRowStep db n1 sn dn sor slug pid).1.agencies slug =
        some row ∧
      row.id = (upsertAgencyRowStep db n1 sn dn sor slug pid).2 ∧
      row.parent_id = pid ∧ row.slug = slug := by
  cases hf : findAgencyBySlug db.agencies slug with
  | none =>
    refine ⟨AgencyRow.mk db.next_agency_id n1 (orNoneStr sn) dn sor slug pid, ?_, ?_, rfl, rfl⟩
    · simp only [upsertAgencyRowStep, hf]
      rw [findAgencyBySlug_append, hf]
      simp [findAgencyBySlug]
    · simp only [upsertAgencyRowStep, hf]
  | some a0 =>
    have ha0 : a0.slug = slug := findAgencyBySlug_some_slug _ _ _ hf
    refine ⟨overwriteAgencyFields n1 sn dn sor pid a0, ?_, ?_, rfl, ha0⟩
    · simp only [upsertAgencyRowStep, hf]
      rw [updateWhereSlug_self _ _ _ (overwriteAgencyFields_slug n1 sn dn sor pid), hf]
      rfl
    · simp only [upsertAgencyRowStep, hf]
      rfl

theorem step_find_other (db : Db) (n1 : String) (sn : Option String) (dn sor slug : String)
    (pid : Option Nat) (s : String) (hs : s ≠ slug) :
    findAgencyBySlug (upsertAgencyRowStep db n1 sn dn sor slug pid).1.agencies s =
      findAgencyBySlug db.agencies s := by
  cases hf : findAgencyBySlug db.agencies slug with
  | none =>
    simp only [upsertAgencyRowStep, hf]
    rw [findAgencyBySlug_append]
    cases hg : findAgencyBySlug db.agencies s with
    | none =>
      simp only [Option.elim]
      rw [findAgencyBySlug, findAgencyBySlug]
      rw [if_neg (fun hh => hs hh.symm)]
    | some b => rfl
  | some a0 =>
    simp only [upsertAgencyRowStep, hf]
    rw [updateWhereSlug_other _ _ _ _ hs (overwriteAgencyFields_slug n1 sn dn sor pid)]

theorem step_id_stable (db : Db) (n1 : String) (sn : Option String) (dn sor slug : String)
    (pid : Option Nat) (s : String) (a : AgencyRow)
    (h : findAgencyBySlug db.agencies s = some a) :
    ∃ a2, findAgencyBySlug (upsertAgencyRowStep db n1 sn dn sor slug pid).1.agencies s =
        some a2 ∧ a2.id = a.id := by
  by_cases hs : s = slug
  · subst hs
    cases hf : findAgencyBySlug db.agencies s with
    | none => rw [hf] at h; cases h
    | some a0 =>
      rw [hf] at h
      injection h with h2
      subst h2
      refine ⟨overwriteAgencyFields n1 sn dn sor pid a0, ?_, rfl⟩
      simp only [upsertAgencyRowStep, hf]
      rw [updateWhereSlug_self _ _ _ (overwriteAgencyFields_slug n1 sn dn sor pid), hf]
      rfl
  · exact ⟨a, by rw [step_find_other db n1 sn dn sor slug pid s hs, h], rfl⟩

theorem step_mem_mono (db : Db) (n1 : String) (sn : Option String) (dn sor slug : String)
    (pid : Option Nat) (s : String) (hm : s ∈ slugsOf db.agencies) :
    s ∈ slugsOf (upsertAgencyRowStep db n1 sn dn sor slug pid).1.agencies := by
  cases hf : findAgencyBySlug db.agencies slug with
  | none =>
    simp only [upsertAgencyRowStep, hf]
    rw [slugsOf_append, List.mem_append]
    exact Or.inl hm
  | some a0 =>
    simp only [upsertAgencyRowStep, hf]
    rw [slugsOf_updateWhereSlug _ _ _ (overwriteAgencyFields_slug n1 sn dn sor pid)]
    exact hm

theorem step_mem_self (db : Db) (n1 : String) (sn : Option String) (dn sor slug : String)
    (pid : Option Nat) :
    slug ∈ slugsOf (upsertAgencyRowStep db n1 sn dn sor slug pid).1.agencies := by
  obtain ⟨row, hfind, _, _, _⟩ := step_find_self db n1 sn dn sor slug pid
  rw [← findAgencyBySlug_isSome_iff, hfind]
  rfl

theorem step_nodup (db : Db) (n1 : String) (sn : Option String) (dn sor slug : String)
    (pid : Option Nat) (h : (slugsOf db.agencies).Nodup) :
    (slugsOf (upsertAgencyRowStep db n1 sn dn sor slug pid).1.agencies).Nodup := by
  cases hf : findAgencyBySlug db.agencies slug with
  | none =>
    simp only [upsertAgencyRowStep, hf]
    rw [slugsOf_append, List.nodup_append]
    refine ⟨h, by simp [slugsOf], ?_⟩
    intro x hx
    have hnot : slug ∉ slugsOf db.agencies := by
      rw [← findAgencyBySlug_isSome_iff, hf]
      simp
    simp only [slugsOf, List.map_cons, List.map_nil, List.mem_singleton]
    intro heq
    rw [heq] at hx
    exact hnot hx
  | some a0 =>
    simp only [upsertAgencyRowStep, hf]
    rw [slugsOf_updateWhereSlug _ _ _ (overwriteAgencyFields_slug n1 sn dn sor pid)]
    exact h

theorem step_length (db : Db) (n1 : String) (sn : Option String) (dn sor slug : String)
    (pid : Option Nat) :
    (upsertAgencyRowStep db n1 sn dn sor slug pid).1.agencies.length =
      (if (findAgencyBySlug db.agencies slug).isSome then db.agencies.length
        else db.agencies.length + 1) := by
  cases hf : findAgencyBySlug db.agencies slug with
  | none =>
    simp only [upsertAgencyRowStep, hf]
    simp
  | some a0 =>
    simp only [upsertAgencyRowStep, hf]
    rw [length_updateWhereSlug]
    simp

/-! ## Lemmas about get_or_create_cfr_reference and processRefs -/

theorem get_or_create_agencies (db : Db) (t : Int) (c : Option String) (p : Option Int)
    (s : Option String) :
    (get_or_create_cfr_reference db t c p s).1.agencies = db.agencies := by
  unfold get_or_create_cfr_reference
  split <;> rfl

theorem get_or_create_assocs (db : Db) (t : Int) (c : Option String) (p : Option Int)
    (s : Option String) :
    (get_or_create_cfr_reference db t c p s).1.agency_cfr_references =
      db.agency_cfr_references := by
  unfold get_or_create_cfr_reference
  split <;> rfl

theorem get_or_create_next_agency_id (db : Db) (t : Int) (c : Option String) (p : Option Int)
    (s : Option String) :
    (get_or_create_cfr_reference db t c p s).1.next_agency_id = db.next_agency_id := by
  unfold get_or_create_cfr_reference
  split <;> rfl

theorem processRefs_agencies (aid : Nat) (rs : List RefTupleData) : ∀ db : Db,
    (processRefs db aid rs).agencies = db.agencies := by
  induction rs with
  | nil => intro db; rfl
  | cons rt rest ih =>
    intro db
    simp only [processRefs]
    rw [ih]
    split <;> simp [get_or_create_agencies]

theorem processRefs_next_agency_id (aid : Nat) (rs : List RefTupleData) : ∀ db : Db,
    (processRefs db aid rs).next_agency_id = db.next_agency_id := by
  induction rs with
  | nil => intro db; rfl
  | cons rt rest ih =>
    intro db
    simp only [processRefs]
    rw [ih]
    split <;> simp [get_or_create_next_agency_id]

theorem processRefs_assoc_nodup (aid : Nat) (rs : List RefTupleData) : ∀ db : Db,
    db.agency_cfr_references.Nodup → (processRefs db aid rs).agency_cfr_references.Nodup := by
  induction rs with
  | nil => intro db h; exact h
  | cons rt rest ih =>
    intro db h
    simp only [processRefs]
    apply ih
    split
    · rw [get_or_create_assocs]
      exact h
    · next hp =>
      show ((get_or_create_cfr_reference db rt.title rt.chapter rt.part
        rt.subchapter).1.agency_cfr_references ++ [_]).Nodup
      rw [get_or_create_assocs] at hp ⊢
      rw [List.nodup_append]
      refine ⟨h, List.nodup_singleton _, ?_⟩
      intro x hx
      simp only [List.mem_singleton]
      intro heq
      rw [heq] at hx
      have hat : assocPresent db.agency_cfr_references aid
          (get_or_create_cfr_reference db rt.title rt.chapter rt.part rt.subchapter).2.id =
          true := (assocPresent_iff_mem _ _ _).mpr hx
      simp only [hat] at hp
      exact hp trivial

/-! ## Unfolding equations for upsert_agency -/

theorem upsert_agency_mk (db : Db) (n1 : String) (sn : Option String) (dn sor slug : String)
    (refs : List RefTupleData) (children : List AgencyNode) (pid : Option Nat) :
    upsert_agency db (.mk n1 sn dn sor slug refs children) pid =
      (upsertAgencyChildren
        (processRefs (upsertAgencyRowStep db n1 sn dn sor slug pid).1
          (upsertAgencyRowStep db n1 sn dn sor slug pid).2 refs)
        children (upsertAgencyRowStep db n1 sn dn sor slug pid).2,
      (upsertAgencyRowStep db n1 sn dn sor slug pid).2) := by
  rw [upsert_agency]

theorem upsertAgencyChildren_nil (db : Db) (pid : Nat) :
    upsertAgencyChildren db [] pid = db := by
  rw [upsertAgencyChildren]

theorem upsertAgencyChildren_cons (db : Db) (c : AgencyNode) (cs : List AgencyNode) (pid : Nat) :
    upsertAgencyChildren db (c :: cs) pid =
      upsertAgencyChildren (upsert_agency db c (some pid)).1 cs pid := by
  rw [upsertAgencyChildren]

/-! ## Frame and stability lemmas for the recursive upsert -/

mutual

theorem upsert_frame (db : Db) (node : AgencyNode) (pid : Option Nat) (s : String)
    (hs : s ∉ treeSlugs node) :
    findAgencyBySlug (upsert_agency db node pid).1.agencies s =
      findAgencyBySlug db.agencies s := by
  cases node with
  | mk n1 sn dn sor slug refs children =>
    simp only [treeSlugs, List.mem_cons, not_or] at hs
    obtain ⟨h1, h2⟩ := hs
    rw [upsert_agency_mk]
    show findAgencyBySlug (upsertAgencyChildren _ children _).agencies s = _
    rw [upsert_children_frame _ children _ s h2, processRefs_agencies]
    exact step_find_other db n1 sn dn sor slug pid s h1

theorem upsert_children_frame (db : Db) (cs : List AgencyNode) (pid : Nat) (s : String)
    (hs : s ∉ treeSlugsList cs) :
    findAgencyBySlug (upsertAgencyChildren db cs pid).agencies s =
      findAgencyBySlug db.agencies s := by
  cases cs with
  | nil => rw [upsertAgencyChildren_nil]
  | cons c rest =>
    simp only [treeSlugsList, List.mem_append, not_or] at hs
    rw [upsertAgencyChildren_cons]
    rw [upsert_children_frame _ rest _ s hs.2]
    exact upsert_frame db c (some pid) s hs.1

end

mutual

theorem upsert_id_stable (db : Db) (node : AgencyNode) (pid : Option Nat) (s : String)
    (a : AgencyRow) (h : findAgencyBySlug db.agencies s = some a) :
    ∃ a2, findAgencyBySlug (upsert_agency db node pid).1.agencies s = some a2 ∧
      a2.id = a.id := by
  cases node with
  | mk n1 sn dn sor slug refs children =>
    rw [upsert_agency_mk]
    obtain ⟨a1, h1, hid1⟩ := step_id_stable db n1 sn dn sor slug pid s a h
    have h2 : findAgencyBySlug
        (processRefs (upsertAgencyRowStep db n1 sn dn sor slug pid).1
          (upsertAgencyRowStep db n1 sn dn sor slug pid).2 refs).agencies s = some a1 := by
      rw [processRefs_agencies]
      exact h1
    obtain ⟨a2, h3, hid2⟩ := upsert_children_id_stable _ children _ s a1 h2
    exact ⟨a2, h3, by rw [hid2, hid1]⟩

theorem upsert_children_id_stable (db : Db) (cs : List AgencyNode) (pid : Nat) (s : String)
    (a : AgencyRow) (h : findAgencyBySlug db.agencies s = some a) :
    ∃ a2, findAgencyBySlug (upsertAgencyChildren db cs pid).agencies s = some a2 ∧
      a2.id = a.id := by
  cases cs with
  | nil =>
    rw [upsertAgencyChildren_nil]
    exact ⟨a, h, rfl⟩
  | cons c rest =>
    rw [upsertAgencyChildren_cons]
    obtain ⟨a1, h1, hid1⟩ := upsert_id_stable db c (some pid) s a h
    obtain ⟨a2, h2, hid2⟩ := upsert_children_id_stable _ rest pid s a1 h1
    exact ⟨a2, h2, by rw [hid2, hid1]⟩

end

mutual

theorem upsert_mem_mono (db : Db) (node : AgencyNode) (pid : Option Nat) (s : String)
    (hm : s ∈ slugsOf db.agencies) :
    s ∈ slugsOf (upsert_agency db node pid).1.agencies := by
  cases node with
  | mk n1 sn dn sor slug refs children =>
    rw [upsert_agency_mk]
    show s ∈ slugsOf (upsertAgencyChildren _ children _).agencies
    apply upsert_children_mem_mono
    rw [processRefs_agencies]
    exact step_mem_mono db n1 sn dn sor slug pid s hm

theorem upsert_children_mem_mono (db : Db) (cs : List AgencyNode) (pid : Nat) (s : String)
    (hm : s ∈ slugsOf db.agencies) :
    s ∈ slugsOf (upsertAgencyChildren db cs pid).agencies := by
  cases cs with
  | nil =>
    rw [upsertAgencyChildren_nil]
    exact hm
  | cons c rest =>
    rw [upsertAgencyChildren_cons]
    exact upsert_children_mem_mono _ rest pid s (upsert_mem_mono db c (some pid) s hm)

end

mutual

theorem upsert_slug_nodup (db : Db) (node : AgencyNode) (pid : Option Nat)
    (h : (slugsOf db.agencies).Nodup) :
    (slugsOf (upsert_agency db node pid).1.agencies).Nodup := by
  cases node with
  | mk n1 sn dn sor slug refs children =>
    rw [upsert_agency_mk]
    show (slugsOf (upsertAgencyChildren _ children _).agencies).Nodup
    apply upsert_children_slug_nodup
    rw [processRefs_agencies]
    exact step_nodup db n1 sn dn sor slug pid h

theorem upsert_children_slug_nodup (db : Db) (cs : List AgencyNode) (pid : Nat)
    (h : (slugsOf db.agencies).Nodup) :
    (slugsOf (upsertAgencyChildren db cs pid).agencies).Nodup := by
  cases cs with
  | nil =>
    rw [upsertAgencyChildren_nil]
    exact h
  | cons c rest =>
    rw [upsertAgencyChildren_cons]
    exact upsert_children_slug_nodup _ rest pid (upsert_slug_nodup db c (some pid) h)

end

mutual

theorem upsert_assoc_nodup (db : Db) (node : AgencyNode) (pid : Option Nat)
    (h : db.agency_cfr_references.Nodup) :
    (upsert_agency db node pid).1.agency_cfr_references.Nodup := by
  cases node with
  | mk n1 sn dn sor slug refs children =>
    rw [upsert_agency_mk]
    show (upsertAgencyChildren _ children _).agency_cfr_references.Nodup
    apply upsert_children_assoc_nodup
    apply processRefs_assoc_nodup
    rw [step_assocs]
    exact h

theorem upsert_children_assoc_nodup (db : Db) (cs : List AgencyNode) (pid : Nat)
    (h : db.agency_cfr_references.Nodup) :
    (upsertAgencyChildren db cs pid).agency_cfr_references.Nodup := by
  cases cs with
  | nil =>
    rw [upsertAgencyChildren_nil]
    exact h
  | cons c rest =>
    rw [upsertAgencyChildren_cons]
    exact upsert_children_assoc_nodup _ rest pid (upsert_assoc_nodup db c (some pid) h)

end

mutual

theorem upsert_tree_present (db : Db) (node : AgencyNode) (pid : Option Nat) :
    ∀ s ∈ treeSlugs node, s ∈ slugsOf (upsert_agency db node pid).1.agencies := by
  cases node with
  | mk n1 sn dn sor slug refs children =>
    intro s hsmem
    rw [upsert_agency_mk]
    simp only [treeSlugs, List.mem_cons] at hsmem
    show s ∈ slugsOf (upsertAgencyChildren _ children _).agencies
    rcases hsmem with h | h
    · subst h
      apply upsert_children_mem_mono
      rw [processRefs_agencies]
      exact step_mem_self db n1 sn dn sor s pid
    · exact upsert_children_tree_present _ children _ s h

theorem upsert_children_tree_present (db : Db) (cs : List AgencyNode) (pid : Nat) :
    ∀ s ∈ treeSlugsList cs, s ∈ slugsOf (upsertAgencyChildren db cs pid).agencies := by
  cases cs with
  | nil =>
    intro s h
    simp [treeSlugsList] at h
  | cons c rest =>
    intro s h
    simp only [treeSlugsList, List.mem_append] at h
    rw [upsertAgencyChildren_cons]
    rcases h with h | h
    · exact upsert_children_mem_mono _ rest pid s (upsert_tree_present db c (some pid) s h)
    · exact upsert_children_tree_present _ rest pid s h

end

mutual

theorem upsert_length (db : Db) (node : AgencyNode) (pid : Option Nat)
    (hall : ∀ s ∈ treeSlugs node, s ∈ slugsOf db.agencies) :
    (upsert_agency db node pid).1.agencies.length = db.agencies.length := by
  cases node with
  | mk n1 sn dn sor slug refs children =>
    rw [upsert_agency_mk]
    have hslug : slug ∈ slugsOf db.agencies := by
      apply hall
      simp [treeSlugs]
    have hfind : (findAgencyBySlug db.agencies slug).isSome = true :=
      (findAgencyBySlug_isSome_iff _ _).mpr hslug
    have hstep := step_length db n1 sn dn sor slug pid
    rw [hfind] at hstep
    simp only [if_pos] at hstep
    have hall2 : ∀ s ∈ treeSlugsList children,
        s ∈ slugsOf (processRefs (upsertAgencyRowStep db n1 sn dn sor slug pid).1
          (upsertAgencyRowStep db n1 sn dn sor slug pid).2 refs).agencies := by
      intro s hsmem
      rw [processRefs_agencies]
      apply step_mem_mono
      apply hall
      simp only [treeSlugs, List.mem_cons]
      exact Or.inr hsmem
    show (upsertAgencyChildren _ children _).agencies.length = _
    rw [upsert_children_length _ children _ hall2, processRefs_agencies, hstep]

theorem upsert_children_length (db : Db) (cs : List AgencyNode) (pid : Nat)
    (hall : ∀ s ∈ treeSlugsList cs, s ∈ slugsOf db.agencies) :
    (upsertAgencyChildren db cs pid).agencies.length = db.agencies.length := by
  cases cs with
  | nil => rw [upsertAgencyChildren_nil]
  | cons c rest =>
    rw [upsertAgencyChildren_cons]
    have hallc : ∀ s ∈ treeSlugs c, s ∈ slugsOf db.agencies := by
      intro s hsmem
      apply hall
      simp only [treeSlugsList, List.mem_append]
      exact Or.inl hsmem
    have hallrest : ∀ s ∈ treeSlugsList rest,
        s ∈ slugsOf (upsert_agency db c (some pid)).1.agencies := by
      intro s hsmem
      apply upsert_mem_mono
      apply hall
      simp only [treeSlugsList, List.mem_append]
      exact Or.inr hsmem
    rw [upsert_children_length _ rest pid hallrest, upsert_length db c (some pid) hallc]

end

/-! ## Edges of the supplied tree -/

theorem slug_mem_treeSlugs (node : AgencyNode) : node.slug ∈ treeSlugs node := by
  cases node with
  | mk n1 sn dn sor slug refs children => simp [treeSlugs, AgencyNode.slug]

theorem edgesFrom_subset (s : String) (cs : List AgencyNode) (e : String × String)
    (h : e ∈ edgesFrom s cs) :
    (∃ c ∈ cs, e = (s, AgencyNode.slug c)) ∨ (∃ c ∈ cs, e ∈ treeEdges c) := by
  induction cs with
  | nil => simp [edgesFrom] at h
  | cons c rest ih =>
    simp only [edgesFrom, List.mem_append, List.mem_cons] at h
    rcases h with (h | h) | h
    · exact Or.inl ⟨c, List.mem_cons_self _ _, h⟩
    · exact Or.inr ⟨c, List.mem_cons_self _ _, h⟩
    · rcases ih h with ⟨c2, hc2, he⟩ | ⟨c2, hc2, he⟩
      · exact Or.inl ⟨c2, List.mem_cons_of_mem _ hc2, he⟩
      · exact Or.inr ⟨c2, List.mem_cons_of_mem _ hc2, he⟩

mutual

theorem treeEdges_endpoints (node : AgencyNode) (e : String × String)
    (h : e ∈ treeEdges node) :
    e.1 ∈ treeSlugs node ∧ e.2 ∈ treeSlugs node := by
  cases node with
  | mk n1 sn dn sor slug refs children =>
    rw [treeEdges] at h
    have h2 := edgesFrom_endpoints slug children e h
    simp only [treeSlugs, List.mem_cons]
    exact ⟨h2.1.elim Or.inl Or.inr, Or.inr h2.2⟩

theorem edgesFrom_endpoints (s : String) (cs : List AgencyNode) (e : String × String)
    (h : e ∈ edgesFrom s cs) :
    (e.1 = s ∨ e.1 ∈ treeSlugsList cs) ∧ e.2 ∈ treeSlugsList cs := by
  cases cs with
  | nil => simp [edgesFrom] at h
  | cons c rest =>
    simp only [edgesFrom, List.mem_append, List.mem_cons] at h
    simp only [treeSlugsList, List.mem_append]
    rcases h with (h | h) | h
    · subst h
      exact ⟨Or.inl rfl, Or.inl (slug_mem_treeSlugs c)⟩
    · have h2 := treeEdges_endpoints c e h
      exact ⟨Or.inr (Or.inl h2.1), Or.inl h2.2⟩
    · have h2 := edgesFrom_endpoints s rest e h
      exact ⟨h2.1.elim Or.inl (fun hh => Or.inr (Or.inr hh)), Or.inr h2.2⟩

end

/-! ## The tree-integrity postcondition of upsert_agency -/

mutual

theorem upsert_post (db : Db) (node : AgencyNode) (pid : Option Nat)
    (hnd : (treeSlugs node).Nodup) :
    (∃ row, findAgencyBySlug (upsert_agency db node pid).1.agencies node.slug = some row ∧
      row.id = (upsert_agency db node pid).2 ∧ row.parent_id = pid) ∧
    (∀ e ∈ treeEdges node, edgeOk (upsert_agency db node pid).1 e) := by
  cases node with
  | mk n1 sn dn sor slug refs children =>
    simp only [treeSlugs, List.nodup_cons] at hnd
    obtain ⟨hnotin, hnd2⟩ := hnd
    rw [upsert_agency_mk]
    simp only [AgencyNode.slug]
    obtain ⟨r0, hr0find, hr0id, hr0pid, hr0slug⟩ := step_find_self db n1 sn dn sor slug pid
    have hfinal : findAgencyBySlug (upsertAgencyChildren
        (processRefs (upsertAgencyRowStep db n1 sn dn sor slug pid).1
          (upsertAgencyRowStep db n1 sn dn sor slug pid).2 refs)
        children (upsertAgencyRowStep db n1 sn dn sor slug pid).2).agencies slug = some r0 := by
      rw [upsert_children_frame _ children _ slug hnotin, processRefs_agencies]
      exact hr0find
    obtain ⟨hcall, hcedges⟩ := upsert_children_post
      (processRefs (upsertAgencyRowStep db n1 sn dn sor slug pid).1
        (upsertAgencyRowStep db n1 sn dn sor slug pid).2 refs)
      children (upsertAgencyRowStep db n1 sn dn sor slug pid).2 hnd2
    constructor
    · exact ⟨r0, hfinal, hr0id, hr0pid⟩
    · intro e he
      rw [treeEdges] at he
      rcases edgesFrom_subset slug children e he with ⟨c, hc, heq⟩ | ⟨c, hc, hee⟩
      · obtain ⟨rowc, hrowc, hrowcpid⟩ := hcall c hc
        subst heq
        exact ⟨r0, rowc, hfinal, hrowc, by rw [hrowcpid, hr0id]⟩
      · exact hcedges c hc e hee

theorem upsert_children_post (db : Db) (cs : List AgencyNode) (pid : Nat)
    (hnd : (treeSlugsList cs).Nodup) :
    (∀ c ∈ cs, ∃ row, findAgencyBySlug (upsertAgencyChildren db cs pid).agencies
        (AgencyNode.slug c) = some row ∧ row.parent_id = some pid) ∧
    (∀ c ∈ cs, ∀ e ∈ treeEdges c, edgeOk (upsertAgencyChildren db cs pid) e) := by
  cases cs with
  | nil =>
    exact ⟨fun c hc => absurd hc (List.not_mem_nil c),
      fun c hc => absurd hc (List.not_mem_nil c)⟩
  | cons c rest =>
    simp only [treeSlugsList] at hnd
    rw [List.nodup_append] at hnd
    obtain ⟨hndc, hndrest, hdisj⟩ := hnd
    rw [upsertAgencyChildren_cons]
    obtain ⟨⟨rowc, hrowc, hrowcid, hrowcpid⟩, hedgesc⟩ := upsert_post db c (some pid) hndc
    obtain ⟨hrest1, hrest2⟩ :=
      upsert_children_post (upsert_agency db c (some pid)).1 rest pid hndrest
    constructor
    · intro d hd
      rcases List.mem_cons.mp hd with hdc | hdrest
      · subst hdc
        have hcn : AgencyNode.slug d ∉ treeSlugsList rest := hdisj (slug_mem_treeSlugs d)
        refine ⟨rowc, ?_, hrowcpid⟩
        rw [upsert_children_frame _ rest pid _ hcn]
        exact hrowc
      · exact hrest1 d hdrest
    · intro d hd e he
      rcases List.mem_cons.mp hd with hdc | hdrest
      · subst hdc
        obtain ⟨pa, ca, hpa, hca, hpc⟩ := hedgesc e he
        have hep := treeEdges_endpoints d e he
        have h1 : e.1 ∉ treeSlugsList rest := hdisj hep.1
        have h2 : e.2 ∉ treeSlugsList rest := hdisj hep.2
        refine ⟨pa, ca, ?_, ?_, hpc⟩
        · rw [upsert_children_frame _ rest pid _ h1]
          exact hpa
        · rw [upsert_children_frame _ rest pid _ h2]
          exact hca
      · exact hrest2 d hdrest e he

end

theorem countSlug_eq_one (l : List AgencyRow) (s : String) (hnd : (slugsOf l).Nodup)
    (hm : s ∈ slugsOf l) : countSlug l s = 1 := by
  rw [countSlug_eq_count]
  exact List.count_eq_one_of_mem hnd hm

/-! ## C4 and C1 -/

/-- C4: Tree integrity of the recursive upsert — for every input agency
tree (with the slug-identity of its nodes, i.e. distinct slugs), after
upsert_agency completes the parent_id of each persisted node equals the
assigned id of the row of its supplied parent (the recursion passes
parent_id = this_agency.id to every child), and a root upserted with no
parent has parent_id null. -/
theorem upsert_agency_tree_integrity (db : Db) (node : AgencyNode)
    (hnd : (treeSlugs node).Nodup) :
    (∃ row, findAgencyBySlug (upsert_agency db node none).1.agencies node.slug = some row ∧
      row.id = (upsert_agency db node none).2 ∧ row.parent_id = none) ∧
    (∀ e ∈ treeEdges node, edgeOk (upsert_agency db node none).1 e) :=
  upsert_post db node none hnd

/-- Depth-3 witness tree: one root, one child, one grandchild. -/
def gcNode : AgencyNode :=
  .mk "Grandchild Office" none "Grandchild Office" "grandchild" "gc-office" [] []

def childNode : AgencyNode :=
  .mk "Child Bureau" none "Child Bureau" "child" "child-bureau" [] [gcNode]

def rootNode : AgencyNode :=
  .mk "Root Department" none "Root Department" "root" "root-dept" [] [childNode]

def emptyDb : Db :=
  { agencies := [], cfr_references := [], agency_cfr_references := [],
    next_agency_id := 1, next_cfr_reference_id := 1 }

theorem upsert_agency_tree_integrity_witness :
    (treeSlugs rootNode).Nodup ∧
    ((∃ row, findAgencyBySlug (upsert_agency emptyDb rootNode none).1.agencies rootNode.slug =
        some row ∧
      row.id = (upsert_agency emptyDb rootNode none).2 ∧ row.parent_id = none) ∧
    (∀ e ∈ treeEdges rootNode, edgeOk (upsert_agency emptyDb rootNode none).1 e)) :=
  ⟨by decide, upsert_agency_tree_integrity emptyDb rootNode (by decide)⟩

/-- C1: Agency Upserter idempotence — starting from any store satisfying
the slug uniqueness and association-pair uniqueness constraints, running
upsert_agency twice with an identical input tree leaves exactly one Agency
row per slug of the tree (slug uniqueness still holds, so no slug is
duplicated), no duplicate association rows, and the second run inserts no
Agency row (it overwrites in place): the row count is unchanged. -/
theorem upsert_agency_idempotent_rows (db : Db) (node : AgencyNode)
    (hs : (slugsOf db.agencies).Nodup) (ha : db.agency_cfr_references.Nodup) :
    (slugsOf (upsert_agency (upsert_agency db node none).1 node none).1.agencies).Nodup ∧
    (upsert_agency (upsert_agency db node none).1 node none).1.agency_cfr_references.Nodup ∧
    (∀ s ∈ treeSlugs node,
      countSlug (upsert_agency (upsert_agency db node none).1 node none).1.agencies s = 1) ∧
    (upsert_agency (upsert_agency db node none).1 node none).1.agencies.length =
      (upsert_agency db node none).1.agencies.length := by
  have h1nd : (slugsOf (upsert_agency db node none).1.agencies).Nodup :=
    upsert_slug_nodup db node none hs
  have h1assoc := upsert_assoc_nodup db node none ha
  have h1present := upsert_tree_present db node none
  refine ⟨upsert_slug_nodup _ node none h1nd, upsert_assoc_nodup _ node none h1assoc, ?_,
    upsert_length _ node none h1present⟩
  intro s hsm
  apply countSlug_eq_one
  · exact upsert_slug_nodup _ node none h1nd
  · exact upsert_tree_present _ node none s hsm

/-- Witness input: a parent with a short_name, one reference tuple, and a
child sharing the same reference tuple. -/
def refTuple1 : RefTupleData :=
  { title := 7, chapter := some "I", part := some 100, subchapter := none }

def wChild : AgencyNode :=
  .mk "Sub Agency" none "Sub Agency" "sub" "sub-agency" [refTuple1] []

def wAgency : AgencyNode :=
  .mk "Main Agency" (some "MA") "Main Agency" "main" "main-agency" [refTuple1] [wChild]

theorem upsert_agency_idempotent_rows_witness :
    (slugsOf emptyDb.agencies).Nodup ∧ emptyDb.agency_cfr_references.Nodup ∧
    ((slugsOf (upsert_agency (upsert_agency emptyDb wAgency none).1 wAgency
        none).1.agencies).Nodup ∧
    (upsert_agency (upsert_agency emptyDb wAgency none).1 wAgency
        none).1.agency_cfr_references.Nodup ∧
    (∀ s ∈ treeSlugs wAgency,
      countSlug (upsert_agency (upsert_agency emptyDb wAgency none).1 wAgency
        none).1.agencies s = 1) ∧
    (upsert_agency (upsert_agency emptyDb wAgency none).1 wAgency none).1.agencies.length =
      (upsert_agency emptyDb wAgency none).1.agencies.length) :=
  ⟨by decide, by decide,
    upsert_agency_idempotent_rows emptyDb wAgency (by decide) (by decide)⟩

end Ecfr
